import Mathlib

/-!
Verification of the ChillNote i18n tooling (scripts/i18n/normalize_xcstrings.py,
scripts/i18n/generate_reports.py, scripts/i18n/lint_i18n.py).

The scripts operate on parsed JSON (Python `json.loads`) and on source text.
We embed the parsed JSON values as an inductive `Json` whose objects are
association lists in insertion order (Python dicts preserve insertion order,
and `d[k] = v` keeps the key's position while `setdefault` appends a missing
key at the end).  Python code that would raise (calling `.get`/`.items` on a
non-dict, for instance) is modelled by `Option`: `none` is an aborted run.
Machine strings are Lean `String`s (Python `len` counts code points, as does
`String.length`); the `\b` word-boundary test of the regular expression is
modelled over the ASCII word characters appearing in the sources.
-/

inductive Json where
  | null : Json
  | bool : Bool → Json
  | num : Int → Json
  | str : String → Json
  | arr : List Json → Json
  | obj : List (String × Json) → Json
deriving Repr

abbrev Fields := List (String × Json)

/-- First-occurrence lookup in a Python-dict association list. -/
def lookupF : Fields → String → Option Json
  | [], _ => none
  | (k, v) :: rest, key => if k = key then some v else lookupF rest key

/-- Python `d[key] = v`: replace the value at `key` keeping its position,
append at the end when `key` is absent (also the net effect of
`d.setdefault(key, x)` followed by in-place mutation of the entry). -/
def setF : Fields → String → Json → Fields
  | [], key, v => [(key, v)]
  | (k, w) :: rest, key, v =>
      if k = key then (k, v) :: rest else (k, w) :: setF rest key v

/-- Python truthiness of a parsed-JSON value (`if not x`). -/
def Json.truthy : Json → Bool
  | .null => false
  | .bool b => b
  | .num n => if n = 0 then false else true
  | .str s => if s = "" then false else true
  | .arr xs => match xs with | [] => false | _ => true
  | .obj fs => match fs with | [] => false | _ => true

/-! ## normalize_xcstrings.py -/

/-- The fixed required-locale list of normalize_xcstrings.py and lint_i18n.py. -/
def REQUIRED_LOCALES : List String :=
  ["en", "zh-Hans", "zh-Hant", "ja", "fr", "de", "es", "ko"]

/-- normalize_xcstrings.fallback_value: `localizations.get('en', {})
.get('stringUnit', {}).get('value')`, returned when it is a non-empty string,
the entry key otherwise.  `none` models the AttributeError raised when an
intermediate value is not a dict. -/
def fallback_value (key : String) (localizations : Json) : Option String :=
  match localizations with
  | .obj fs =>
    match (lookupF fs "en").getD (.obj []) with
    | .obj es =>
      match (lookupF es "stringUnit").getD (.obj []) with
      | .obj us =>
        match (lookupF us "value").getD .null with
        | .str s => if s = "" then some key else some s
        | _ => some key
      | _ => none
    | _ => none
  | _ => none

/-- The test `unit.get('state') in (None, 'new')` (a missing key and an
explicit JSON null both read back as Python None). -/
def stateIsNullOrNew : Json → Bool
  | .null => true
  | .str s => if s = "new" then true else false
  | _ => false

/-- The test `unit.get('state') == 'new'` used by the catalog sweep and by
lint_i18n.check_catalog. -/
def stateEqNew : Option Json → Bool
  | some (.str s) => if s = "new" then true else false
  | _ => false

/-- ensure_unit's `unit` local after `if not isinstance(unit, dict): unit = {}`:
the entry's stringUnit when it is a dict, a fresh empty dict otherwise. -/
def unitStart (es : Fields) : Fields :=
  match lookupF es "stringUnit" with
  | some (.obj us) => us
  | _ => []

/-- ensure_unit's `if not unit.get('value'): unit['value'] = value`. -/
def unitWithValue (us : Fields) (value : String) : Fields :=
  if ((lookupF us "value").getD .null).truthy then us
  else setF us "value" (.str value)

/-- ensure_unit's `if unit.get('state') in (None, 'new'): unit['state'] =
'translated'`. -/
def unitWithState (us : Fields) : Fields :=
  if stateIsNullOrNew ((lookupF us "state").getD .null) then
    setF us "state" (.str "translated")
  else us

/-- The final `unit` dict ensure_unit leaves in the entry. -/
def unitAfter (es : Fields) (value : String) : Fields :=
  unitWithState (unitWithValue (unitStart es) value)

/-- normalize_xcstrings.ensure_unit, as a pure function from the
`localizations` dict to its mutated form.  `entry = localizations.setdefault
(locale, {})`; `unit = entry.get('stringUnit')` (AttributeError — `none` —
when the present entry is not a dict); a non-dict unit is replaced by `{}`;
a falsy `value` is backfilled; a None-or-"new" `state` becomes "translated";
the mutated unit sits in the mutated entry, which sits in `localizations`
(appended at the end when the locale was absent, in place otherwise). -/
def ensure_unit (localizations : Json) (locale : String) (value : String) :
    Option Json :=
  match localizations with
  | .obj fs =>
    match (lookupF fs locale).getD (.obj []) with
    | .obj es =>
        some (.obj (setF fs locale
          (.obj (setF es "stringUnit" (.obj (unitAfter es value))))))
    | _ => none
  | _ => none

/-- The `for locale in REQUIRED_LOCALES: ensure_unit(...)` loop. -/
def ensureAll (localizations : Json) (locales : List String) (value : String) :
    Option Json :=
  match locales with
  | [] => some localizations
  | l :: ls => do
      let loc' ← ensure_unit localizations l value
      ensureAll loc' ls value

/-- One step of the final sweep of normalize_xcstrings.main: for a
`locale_data` value, `unit = locale_data.get('stringUnit')` and, if it is a
dict whose state equals "new", flip the state to "translated". -/
def sweepOne (ld : Json) : Option Json :=
  match ld with
  | .obj es =>
    match lookupF es "stringUnit" with
    | some (.obj us) =>
      if stateEqNew (lookupF us "state") then
        some (.obj (setF es "stringUnit" (.obj (setF us "state" (.str "translated")))))
      else some (.obj es)
    | _ => some (.obj es)
  | _ => none

/-- The sweep over `localizations.values()` (keys and order untouched). -/
def sweepFields : Fields → Option Fields
  | [] => some []
  | (k, ld) :: rest => do
      let ld' ← sweepOne ld
      let rest' ← sweepFields rest
      some ((k, ld') :: rest')

/-- The per-entry body of normalize_xcstrings.main: `localizations =
value.setdefault('localizations', {})`, compute the fallback once, run
ensure_unit for every required locale, then sweep all localizations. -/
def normalize_entry (key : String) (v : Json) : Option Json :=
  match v with
  | .obj vf => do
    let loc0 := (lookupF vf "localizations").getD (.obj [])
    let dv ← fallback_value key loc0
    let loc1 ← ensureAll loc0 REQUIRED_LOCALES dv
    match loc1 with
    | .obj lf => do
        let lf' ← sweepFields lf
        some (.obj (setF vf "localizations" (.obj lf')))
    | _ => none
  | _ => none

/-- The `for key, value in strings.items()` loop (entry dicts are mutated in
place; keys and their order are untouched). -/
def normalizeStringsF : Fields → Option Fields
  | [] => some []
  | (k, v) :: rest => do
      let v' ← normalize_entry k v
      let rest' ← normalizeStringsF rest
      some ((k, v') :: rest')

/-- normalize_xcstrings.main on the parsed catalog: `strings = data.get
('strings', {})`, normalize every entry in place, and write `data` back.
When `strings` is absent the loop runs over a fresh empty dict and `data` is
written back unchanged (no `strings` key is invented). -/
def normalizeData (data : Json) : Option Json :=
  match data with
  | .obj df =>
    match lookupF df "strings" with
    | some (.obj fs) =>
        (normalizeStringsF fs).map fun fs' => Json.obj (setF df "strings" (.obj fs'))
    | some _ => none
    | none => some (.obj df)
  | _ => none

/-! ## generate_reports.load_catalog -/

/-- generate_reports.load_catalog after `json.loads`: `data.get('strings',
{})`.  It never raises on a missing `strings` field — the default `{}` is
returned; `none` only models the AttributeError on a non-dict root. -/
def load_catalog (data : Json) : Option Json :=
  match data with
  | .obj df => some ((lookupF df "strings").getD (.obj []))
  | _ => none

/-! ## lint_i18n.check_catalog -/

def catalogMissingMsg (key locale : String) : String :=
  "[catalog] key=\"" ++ key ++ "\" missing locale=\"" ++ locale ++ "\""

def catalogStateMsg (key locale : String) : String :=
  "[catalog] key=\"" ++ key ++ "\" locale=\"" ++ locale ++ "\" state=new"

def catalogValueMsg (key locale : String) : String :=
  "[catalog] key=\"" ++ key ++ "\" locale=\"" ++ locale ++ "\" empty value"

/-- The per-locale body of lint_i18n.check_catalog: `unit =
localizations.get(locale, {}).get('stringUnit')`; a non-dict unit is one
"missing locale" error, otherwise a state=="new" error and an empty-value
error accumulate independently. -/
def check_locale_errors (key locale : String) (localizations : Json) :
    Option (List String) :=
  match localizations with
  | .obj lfs =>
    match (lookupF lfs locale).getD (.obj []) with
    | .obj es =>
      match lookupF es "stringUnit" with
      | some (.obj us) =>
          some ((if stateEqNew (lookupF us "state") then [catalogStateMsg key locale] else [])
            ++ (if ((lookupF us "value").getD .null).truthy then [] else [catalogValueMsg key locale]))
      | _ => some [catalogMissingMsg key locale]
    | _ => none
  | _ => none

/-- The `for locale in REQUIRED_LOCALES` loop of check_catalog. -/
def check_locales_loop (locales : List String) (key : String)
    (localizations : Json) : Option (List String) :=
  match locales with
  | [] => some []
  | l :: ls => do
      let e ← check_locale_errors key l localizations
      let rest ← check_locales_loop ls key localizations
      some (e ++ rest)

/-- The `for key, value in strings.items()` loop of check_catalog
(`localizations = value.get('localizations', {})`). -/
def check_entries_loop : Fields → Option (List String)
  | [] => some []
  | (k, v) :: rest => do
      let loc ← match v with
        | .obj vf => some ((lookupF vf "localizations").getD (.obj []))
        | _ => none
      let e ← check_locales_loop REQUIRED_LOCALES k loc
      let rest' ← check_entries_loop rest
      some (e ++ rest')

/-- lint_i18n.check_catalog on the parsed catalog file. -/
def check_catalog (data : Json) : Option (List String) :=
  match data with
  | .obj df =>
    match (lookupF df "strings").getD (.obj []) with
    | .obj fs => check_entries_loop fs
    | _ => none
  | _ => none

/-! ## UI_LITERAL_PATTERN and the extraction scan

The pattern (byte-identical in generate_reports.py and lint_i18n.py) is

  \b(Text|Button|Label|TextField)\(\s*"((?:\\.|[^"\\])*)"|
  \.alert\(\s*"((?:\\.|[^"\\])*)"|
  \.navigationTitle\(\s*"((?:\\.|[^"\\])*)"|
  \.accessibility(?:Label|Hint)\(\s*"((?:\\.|[^"\\])*)"

`finditer` yields leftmost non-overlapping matches, trying alternatives in
order at each position.  The string body `(?:\\.|[^"\\])*"` is deterministic:
a backslash must take the `\\.` arm (whose `.` excludes a newline), a quote
ends the body, anything else is one plain character.  `\s*` is deterministic
because `"` is not whitespace.  The four alternatives are mutually exclusive
at any one position (the first requires a word character `T`/`B`/`L`, the
rest a literal dot), and the construct names are tried in the alternation's
order with backtracking, which the prefix-try loop below reproduces. -/

/-- The regex `\w` over the ASCII range (the sources are ASCII). -/
def isWordChar (c : Char) : Bool := c.isAlpha || c.isDigit || c = '_'

/-- The regex `\s` character class. -/
def isPatternSpace (c : Char) : Bool :=
  c = ' ' || c = '\t' || c = '\n' || c = '\r' || c = '\x0b' || c = '\x0c'

/-- Greedy `\s*`. -/
def dropSpaces : List Char → List Char
  | [] => []
  | c :: rest => if isPatternSpace c then dropSpaces rest else c :: rest

/-- Match `(?:\\.|[^"\\])*"`: the captured body and the text after the
closing quote.  `\\.` consumes a backslash and any character but a newline;
`[^"\\]` consumes any other character but a quote. -/
def matchStringBody : List Char → Option (List Char × List Char)
  | [] => none
  | '"' :: rest => some ([], rest)
  | '\\' :: [] => none
  | '\\' :: c :: rest =>
      if c = '\n' then none
      else (matchStringBody rest).map fun p => ('\\' :: c :: p.1, p.2)
  | c :: rest => (matchStringBody rest).map fun p => (c :: p.1, p.2)

/-- Strip a literal name. -/
def stripName : List Char → List Char → Option (List Char)
  | [], cs => some cs
  | _ :: _, [] => none
  | n :: ns, c :: cs => if c = n then stripName ns cs else none

/-- Match `\(\s*"body"` after a construct or modifier name. -/
def matchCallArg (cs : List Char) : Option (List Char × List Char) :=
  match cs with
  | '(' :: rest =>
    match dropSpaces rest with
    | '"' :: rest2 => matchStringBody rest2
    | _ => none
  | _ => none

/-- Try the alternation's names in order; each attempt is the full
`name\(\s*"body"` (the regex backtracks to the next name when any later
piece fails). -/
def tryNames (names : List String) (cs : List Char) :
    Option (String × List Char × List Char) :=
  match names with
  | [] => none
  | n :: ns =>
    match stripName n.data cs with
    | some rest =>
      match matchCallArg rest with
      | some (raw, after) => some (n, raw, after)
      | none => tryNames ns cs
    | none => tryNames ns cs

def constructNames : List String := ["Text", "Button", "Label", "TextField"]

def modifierNames : List String :=
  [".alert", ".navigationTitle", ".accessibilityLabel", ".accessibilityHint"]

/-- One match attempt at a position: group 1 (the construct name, `none` for
the modifier alternatives), the raw captured body, and the remaining text.
The first alternative needs the word boundary `\b`: the previous character,
if any, is not a word character. -/
def tryMatch (prev : Option Char) (cs : List Char) :
    Option (Option String × List Char × List Char) :=
  match
    (if (match prev with | none => true | some p => !(isWordChar p)) then
      tryNames constructNames cs
    else none) with
  | some (n, raw, after) => some (some n, raw, after)
  | none =>
    match tryNames modifierNames cs with
    | some (_, raw, after) => some (none, raw, after)
    | none => none

structure RawMatch where
  start : Nat
  ctx : Option String
  raw : List Char
deriving Repr, DecidableEq

/-- The finditer scan: at each position try the pattern; on a match record it
and resume after the consumed text (every match ends in the closing quote,
hence the resumed previous character); otherwise advance one character.  The
fuel is an upper bound on the number of steps (each step consumes at least
one character), so it never runs out. -/
def scanAux : Nat → Option Char → List Char → Nat → List RawMatch
  | 0, _, _, _ => []
  | _ + 1, _, [], _ => []
  | fuel + 1, prev, c :: rest, i =>
    match tryMatch prev (c :: rest) with
    | some (ctx, raw, after) =>
        { start := i, ctx := ctx, raw := raw } ::
          scanAux fuel (some '"') after (i + ((c :: rest).length - after.length))
    | none => scanAux fuel (some c) rest (i + 1)

def scanContent (cs : List Char) : List RawMatch :=
  scanAux (cs.length + 1) none cs 0

/-- Python `str.replace(ab, r)` for a two-character needle: leftmost,
non-overlapping, the replacement is not rescanned. -/
def replacePair (a b : Char) (r : List Char) : List Char → List Char
  | x :: y :: rest =>
      if x = a && y = b then r ++ replacePair a b r rest
      else x :: replacePair a b r (y :: rest)
  | l => l

/-- The two replaces applied to every captured literal:
`literal.replace('\\n', '\n').replace('\\"', '"')`. -/
def resolveEscapes (raw : List Char) : List Char :=
  replacePair '\\' '"' ['"'] (replacePair '\\' 'n' ['\n'] raw)

/-- Modelled from the spec: "within a captured literal, the two-character
sequence for escaped newline is converted to a real newline, and the
two-character sequence for escaped quote is converted to a literal quote
character. No other escape processing occurs" — a single left-to-right pass
converting exactly those two pairs and copying every other character. -/
def resolveEscapesSpec : List Char → List Char
  | '\\' :: 'n' :: rest => '\n' :: resolveEscapesSpec rest
  | '\\' :: '"' :: rest => '"' :: resolveEscapesSpec rest
  | c :: rest => c :: resolveEscapesSpec rest
  | [] => []

/-- Python `needle in s` (substring containment). -/
def containsSeq (pat : List Char) : List Char → Bool
  | [] => pat.isPrefixOf []
  | c :: rest => pat.isPrefixOf (c :: rest) || containsSeq pat rest

/-- Number of newline characters in a character list. -/
def countNl (cs : List Char) : Nat := (cs.filter fun c => c = '\n').length

/-! ## generate_reports.py: records, risk, reports -/

structure LiteralRecord where
  key : String
  file : String
  line : Nat
  is_dynamic : Bool
  context : String
deriving Repr, DecidableEq

/-- generate_reports.iter_swift_literals for one file: for every match, the
first truthy capture of groups 2..5 is the branch's body (an empty capture is
falsy and the match is skipped), escapes are resolved, the line is
`content.count('\n', 0, match.start()) + 1`, the dynamic flag tests for the
interpolation marker in the resolved text, and the context is
`match.group(1) or 'modifier'`. -/
def recordsOfFile (path content : String) : List LiteralRecord :=
  (scanContent content.data).filterMap fun m =>
    match m.raw with
    | [] => none
    | _ =>
      let lit := resolveEscapes m.raw
      some { key := String.mk lit
             file := path
             line := countNl (content.data.take m.start) + 1
             is_dynamic := containsSeq ['\\', '('] lit
             context := m.ctx.getD "modifier" }

/-- iter_swift_literals over the file walk (a list of path, content pairs in
traversal order). -/
def iter_swift_literals (files : List (String × String)) : List LiteralRecord :=
  files.foldr (fun pc acc => recordsOfFile pc.1 pc.2 ++ acc) []

/-- generate_reports.risk_level. -/
def risk_level (literal : String) : String :=
  if containsSeq ['\\', '('] literal.data || containsSeq ['%', '@'] literal.data
      || containsSeq ['%', 'l', 'l', 'd'] literal.data then "high"
  else if literal.length > 48 then "medium"
  else "low"

/-- The disjunction risk_level tests first (interpolation marker or either
fixed placeholder token). -/
def hasRiskMarker (literal : String) : Bool :=
  containsSeq ['\\', '('] literal.data || containsSeq ['%', '@'] literal.data
    || containsSeq ['%', 'l', 'l', 'd'] literal.data

/-- The `missing` accumulation loop of generate_missing_report: keep the
rows whose key is not in the catalog key set, in encounter order. -/
def buildMissing (literals : List LiteralRecord) (keys : List String) :
    List LiteralRecord :=
  match literals with
  | [] => []
  | r :: rest =>
      if keys.contains r.key then buildMissing rest keys
      else r :: buildMissing rest keys

/-- `row['key'].replace('|', '\\|')`. -/
def escPipeL : List Char → List Char
  | [] => []
  | c :: rest => if c = '|' then '\\' :: '|' :: escPipeL rest else c :: escPipeL rest

def escPipe (s : String) : String := String.mk (escPipeL s.data)

/-- One table row of the missing-keys report. -/
def missingRow (r : LiteralRecord) : String :=
  "| `" ++ escPipe r.key ++ "` | `" ++ r.file ++ "` | " ++ toString r.line
    ++ " | " ++ (if r.is_dynamic then "yes" else "no") ++ " |"

/-- generate_reports.generate_missing_report, as the list of lines it joins
and writes: heading, blank, the exact-total summary, blank, the table header
and separator, then the first 400 missing rows. -/
def missingReportLines (literals : List LiteralRecord) (keys : List String) :
    List String :=
  let missing := buildMissing literals keys
  ["# Missing Localization Keys Report v1",
   "",
   "- Total missing literals: " ++ toString missing.length,
   "",
   "| Key | File | Line | Dynamic |",
   "| --- | --- | ---: | :---: |"]
  ++ (missing.take 400).map missingRow

/-! ## lint_i18n.check_swift_literals -/

/-- The error line `[swift] {path}:{line} literal not in catalog: "{literal}"`. -/
def orphanMsg (path : String) (line : Nat) (literal : String) : String :=
  "[swift] " ++ path ++ ":" ++ toString line ++ " literal not in catalog: \""
    ++ literal ++ "\""

/-- lint_i18n.check_swift_literals for one file: same pattern, same
first-truthy-capture selection and escape resolution as the extractor; a
literal containing the interpolation marker is skipped, a literal in the
catalog key set is skipped, anything else is an error line. -/
def lintFile (keys : List String) (path content : String) : List String :=
  (scanContent content.data).filterMap fun m =>
    match m.raw with
    | [] => none
    | _ =>
      let lit := resolveEscapes m.raw
      if containsSeq ['\\', '('] lit then none
      else if keys.contains (String.mk lit) then none
      else some (orphanMsg path (countNl (content.data.take m.start) + 1) (String.mk lit))

/-- check_swift_literals over the file walk. -/
def check_swift_literals (files : List (String × String)) (keys : List String) :
    List String :=
  files.foldr (fun pc acc => lintFile keys pc.1 pc.2 ++ acc) []

/-! ## Accessors and side conditions used by the statements -/

/-- The stringUnit of a locale's entry, when the localizations dict has an
object entry for that locale. -/
def unitOf (localizations : Json) (locale : String) : Option Json :=
  match localizations with
  | .obj fs =>
    match lookupF fs locale with
    | some (.obj es) => lookupF es "stringUnit"
    | _ => none
  | _ => none

/-- The raw English value fallback_value inspects:
`localizations.get('en', {}).get('stringUnit', {}).get('value')`. -/
def enValue (localizations : Json) : Option Json :=
  match localizations with
  | .obj fs =>
    match (lookupF fs "en").getD (.obj []) with
    | .obj es =>
      match (lookupF es "stringUnit").getD (.obj []) with
      | .obj us => some ((lookupF us "value").getD .null)
      | _ => none
    | _ => none
  | _ => none

/-- The entry has no well-formed unit for the locale: whatever `unitOf`
reads there is not a dict. -/
def NoWellFormedUnit (localizations : Json) (locale : String) : Prop :=
  ∀ us : Fields, unitOf localizations locale ≠ some (.obj us)

/-- The entry's fallback value (non-empty English value, else the key) is a
non-empty string. -/
def entryFallbackNonempty (k : String) (v : Json) : Bool :=
  match v with
  | .obj vf =>
    match fallback_value k ((lookupF vf "localizations").getD (.obj [])) with
    | some s => if s = "" then false else true
    | none => true
  | _ => true

/-- Every entry of the catalog has a non-empty fallback value. -/
def fallbacksNonempty (d : Json) : Bool :=
  match d with
  | .obj df =>
    match lookupF df "strings" with
    | some (.obj fs) => fs.all fun kv => entryFallbackNonempty kv.1 kv.2
    | _ => true
  | _ => true

/-- Invariant of a locale after ensure_unit has run on it: the locale has an
object entry whose stringUnit is a dict, the unit's value is truthy or is
the entry's fallback string, and its state is neither None nor "new". -/
def NormalizedAt (loc : Json) (locale : String) (dv : String) : Prop :=
  ∃ fs es us,
    loc = .obj fs ∧
    lookupF fs locale = some (.obj es) ∧
    lookupF es "stringUnit" = some (.obj us) ∧
    (((lookupF us "value").getD .null).truthy = true ∨
      lookupF us "value" = some (.str dv)) ∧
    stateIsNullOrNew ((lookupF us "state").getD .null) = false

/-! ## Concrete inputs used by counterexamples and witnesses -/

/-- A catalog whose single entry has the empty string as its key and no
localizations: its fallback value is the key, the empty string. -/
def emptyKeyCatalog : Json := Json.obj [("strings", Json.obj [("", Json.obj [])])]

/-- A one-entry catalog with an English value and a stale "new" state. -/
def saveCatalog : Json :=
  Json.obj [("sourceLanguage", Json.str "en"),
    ("strings", Json.obj [("Save", Json.obj [("localizations", Json.obj
      [("en", Json.obj [("stringUnit", Json.obj
        [("value", Json.str "Save"), ("state", Json.str "new")])])])])])]

/-- Source text whose third line holds `Text("Hello")`. -/
def demoContent : String := "// intro\n// more\nText(\"Hello\")\n"

/-- The raw `value` stored for a key and locale of a parsed catalog, read
through the same field path the scripts use. -/
def catalogUnitValue (d : Json) (key locale : String) : Option Json :=
  match d with
  | .obj df =>
    match lookupF df "strings" with
    | some (.obj fs) =>
      match lookupF fs key with
      | some (.obj vf) =>
        match lookupF vf "localizations" with
        | some loc =>
          match unitOf loc locale with
          | some (.obj us) => lookupF us "value"
          | _ => none
        | _ => none
      | _ => none
    | _ => none
  | _ => none

/-! ## Association-list lemmas -/

theorem lookupF_setF_self (fs : Fields) (k : String) (v : Json) :
    lookupF (setF fs k v) k = some v := by
  induction fs with
  | nil => simp [setF, lookupF]
  | cons hd tl ih =>
      obtain ⟨k', w⟩ := hd
      by_cases h : k' = k
      · simp [setF, h, lookupF]
      · simp [setF, h, lookupF, ih]

theorem lookupF_setF_ne (fs : Fields) (k k' : String) (v : Json)
    (h : k' ≠ k) : lookupF (setF fs k v) k' = lookupF fs k' := by
  have hk : ¬ k = k' := fun e => h e.symm
  induction fs with
  | nil => simp [setF, lookupF, hk]
  | cons hd tl ih =>
      obtain ⟨k0, w⟩ := hd
      by_cases h0 : k0 = k
      · subst h0
        simp [setF, lookupF, hk]
      · by_cases h1 : k0 = k'
        · simp [setF, h0, lookupF, h1, h]
        · simp [setF, h0, lookupF, h1, ih]

theorem setF_lookup_eq (fs : Fields) (k : String) (v : Json)
    (h : lookupF fs k = some v) : setF fs k v = fs := by
  induction fs with
  | nil => simp [lookupF] at h
  | cons hd tl ih =>
      obtain ⟨k0, w⟩ := hd
      by_cases h0 : k0 = k
      · simp [lookupF, h0] at h
        simp [setF, h0, h]
      · simp [lookupF, h0] at h
        simp [setF, h0, ih h]

theorem setF_setF (fs : Fields) (k : String) (a b : Json) :
    setF (setF fs k a) k b = setF fs k b := by
  induction fs with
  | nil => simp [setF]
  | cons hd tl ih =>
      obtain ⟨k0, w⟩ := hd
      by_cases h0 : k0 = k
      · simp [setF, h0]
      · simp [setF, h0, ih]

/-! ## Unit-step lemmas -/

theorem unitWithValue_ok (us : Fields) (dv : String) :
    ((lookupF (unitWithValue us dv) "value").getD .null).truthy = true ∨
      lookupF (unitWithValue us dv) "value" = some (.str dv) := by
  unfold unitWithValue
  by_cases h : ((lookupF us "value").getD .null).truthy = true
  · simp [h]
  · simp [h, lookupF_setF_self]

theorem unitWithValue_of_ok (us : Fields) (dv : String)
    (h : ((lookupF us "value").getD .null).truthy = true ∨
      lookupF us "value" = some (.str dv)) :
    unitWithValue us dv = us := by
  unfold unitWithValue
  rcases h with h | h
  · simp [h]
  · by_cases ht : ((lookupF us "value").getD .null).truthy = true
    · simp [ht]
    · simp [ht, setF_lookup_eq us "value" (.str dv) h]

theorem unitWithValue_state (us : Fields) (dv : String) :
    lookupF (unitWithValue us dv) "state" = lookupF us "state" := by
  unfold unitWithValue
  by_cases h : ((lookupF us "value").getD .null).truthy = true
  · simp [h]
  · simp [h, lookupF_setF_ne us "value" "state" _ (by decide)]

theorem unitWithState_value (us : Fields) :
    lookupF (unitWithState us) "value" = lookupF us "value" := by
  unfold unitWithState
  by_cases h : stateIsNullOrNew ((lookupF us "state").getD .null) = true
  · simp [h, lookupF_setF_ne us "state" "value" _ (by decide)]
  · simp [h]

theorem unitWithState_ok (us : Fields) :
    stateIsNullOrNew ((lookupF (unitWithState us) "state").getD .null) = false := by
  unfold unitWithState
  cases h : stateIsNullOrNew ((lookupF us "state").getD .null) with
  | true =>
      simp only [h, if_true]
      rw [lookupF_setF_self]
      decide
  | false => simp [h]

theorem unitWithState_of_ok (us : Fields)
    (h : stateIsNullOrNew ((lookupF us "state").getD .null) = false) :
    unitWithState us = us := by
  unfold unitWithState
  simp [h]

theorem stateEqNew_of_ok (us : Fields)
    (h : stateIsNullOrNew ((lookupF us "state").getD .null) = false) :
    stateEqNew (lookupF us "state") = false := by
  cases hl : lookupF us "state" with
  | none => rw [hl] at h; simp [stateIsNullOrNew] at h
  | some j =>
      rw [hl] at h
      cases j with
      | str s =>
          simp [stateIsNullOrNew] at h
          simp [stateEqNew, h]
      | null => simp [stateIsNullOrNew] at h
      | bool b => simp [stateEqNew]
      | num n => simp [stateEqNew]
      | arr xs => simp [stateEqNew]
      | obj fs => simp [stateEqNew]

/-! ## ensure_unit lemmas -/

theorem ensure_unit_inv (loc loc' : Json) (l v : String)
    (h : ensure_unit loc l v = some loc') :
    ∃ fs es, loc = .obj fs ∧ (lookupF fs l).getD (.obj []) = .obj es ∧
      loc' = .obj (setF fs l (.obj (setF es "stringUnit" (.obj (unitAfter es v))))) := by
  cases loc with
  | null => simp [ensure_unit] at h
  | bool b => simp [ensure_unit] at h
  | num n => simp [ensure_unit] at h
  | str s => simp [ensure_unit] at h
  | arr xs => simp [ensure_unit] at h
  | obj fs =>
    cases hE : (lookupF fs l).getD (.obj []) with
    | obj es =>
        simp [ensure_unit, hE] at h
        exact ⟨fs, es, rfl, hE, h.symm⟩
    | null => simp [ensure_unit, hE] at h
    | bool b => simp [ensure_unit, hE] at h
    | num n => simp [ensure_unit, hE] at h
    | str s => simp [ensure_unit, hE] at h
    | arr xs => simp [ensure_unit, hE] at h

theorem ensure_unit_eq_of (fs es : Fields) (l v : String)
    (hE : (lookupF fs l).getD (.obj []) = .obj es) :
    ensure_unit (.obj fs) l v =
      some (.obj (setF fs l (.obj (setF es "stringUnit" (.obj (unitAfter es v)))))) := by
  simp [ensure_unit, hE]

theorem ensure_unit_post (loc loc' : Json) (l dv : String)
    (h : ensure_unit loc l dv = some loc') : NormalizedAt loc' l dv := by
  obtain ⟨fs, es, rfl, hE, rfl⟩ := ensure_unit_inv _ _ _ _ h
  refine ⟨setF fs l (.obj (setF es "stringUnit" (.obj (unitAfter es dv)))),
    setF es "stringUnit" (.obj (unitAfter es dv)), unitAfter es dv, rfl,
    lookupF_setF_self _ _ _, lookupF_setF_self _ _ _, ?_, ?_⟩
  · unfold unitAfter
    rw [unitWithState_value]
    exact unitWithValue_ok (unitStart es) dv
  · unfold unitAfter
    exact unitWithState_ok _

theorem ensure_unit_of_normalized (loc : Json) (l dv : String)
    (h : NormalizedAt loc l dv) : ensure_unit loc l dv = some loc := by
  obtain ⟨fs, es, us, rfl, hfs, hes, hval, hst⟩ := h
  have hE : (lookupF fs l).getD (.obj []) = .obj es := by rw [hfs]; rfl
  have hu : unitAfter es dv = us := by
    unfold unitAfter
    have h0 : unitStart es = us := by unfold unitStart; rw [hes]
    rw [h0, unitWithValue_of_ok us dv hval, unitWithState_of_ok us hst]
  rw [ensure_unit_eq_of fs es l dv hE, hu, setF_lookup_eq es "stringUnit" (.obj us) hes,
    setF_lookup_eq fs l (.obj es) hfs]

theorem ensure_unit_preserves (loc loc' : Json) (l l' v dv : String)
    (hne : l ≠ l') (h : ensure_unit loc l' v = some loc')
    (hN : NormalizedAt loc l dv) : NormalizedAt loc' l dv := by
  obtain ⟨fs, es2, heq, hE, rfl⟩ := ensure_unit_inv _ _ _ _ h
  obtain ⟨fs0, es, us, heq0, hfs, hes, hval, hst⟩ := hN
  rw [heq] at heq0
  injection heq0 with hff
  subst hff
  exact ⟨_, es, us, rfl, by rw [lookupF_setF_ne _ _ _ _ hne]; exact hfs, hes, hval, hst⟩

/-! ## ensureAll lemmas -/

theorem ensureAll_cons (loc : Json) (hd : String) (tl : List String) (v : String) :
    ensureAll loc (hd :: tl) v =
      (ensure_unit loc hd v).bind fun loc1 => ensureAll loc1 tl v := rfl

theorem ensureAll_preserves (locs : List String) (loc loc' : Json) (v dv l : String)
    (hnin : l ∉ locs) (h : ensureAll loc locs v = some loc')
    (hN : NormalizedAt loc l dv) : NormalizedAt loc' l dv := by
  induction locs generalizing loc with
  | nil =>
      simp [ensureAll] at h
      exact h ▸ hN
  | cons hd tl ih =>
      rw [ensureAll_cons] at h
      simp only [Option.bind_eq_some] at h
      obtain ⟨loc1, h1, h2⟩ := h
      have hne : l ≠ hd := fun e => hnin (e ▸ List.mem_cons_self hd tl)
      exact ih loc1 (fun m => hnin (List.mem_cons_of_mem _ m)) h2
        (ensure_unit_preserves loc loc1 l hd v dv hne h1 hN)

theorem ensureAll_establishes (locs : List String) (loc loc' : Json) (dv : String)
    (hnd : locs.Nodup) (h : ensureAll loc locs dv = some loc') :
    ∀ l ∈ locs, NormalizedAt loc' l dv := by
  induction locs generalizing loc with
  | nil => simp
  | cons hd tl ih =>
      obtain ⟨hmem, hnd'⟩ := List.nodup_cons.mp hnd
      rw [ensureAll_cons] at h
      simp only [Option.bind_eq_some] at h
      obtain ⟨loc1, h1, h2⟩ := h
      intro l hl
      rcases List.mem_cons.mp hl with rfl | hl
      · exact ensureAll_preserves tl loc1 loc' dv dv l hmem h2
          (ensure_unit_post loc loc1 l dv h1)
      · exact ih loc1 hnd' h2 l hl

theorem ensureAll_of_normalized (locs : List String) (loc : Json) (dv : String)
    (h : ∀ l ∈ locs, NormalizedAt loc l dv) : ensureAll loc locs dv = some loc := by
  induction locs with
  | nil => rfl
  | cons hd tl ih =>
      rw [ensureAll_cons, ensure_unit_of_normalized loc hd dv (h hd (List.mem_cons_self hd tl))]
      exact ih fun l hl => h l (List.mem_cons_of_mem _ hl)

/-! ## Sweep lemmas -/

theorem sweepFields_cons (k : String) (ld : Json) (tl : Fields) :
    sweepFields ((k, ld) :: tl) =
      (sweepOne ld).bind fun ld' =>
        (sweepFields tl).bind fun tl' => some ((k, ld') :: tl') := rfl

theorem sweepOne_idem (ld ld' : Json) (h : sweepOne ld = some ld') :
    sweepOne ld' = some ld' := by
  cases ld with
  | null => simp [sweepOne] at h
  | bool b => simp [sweepOne] at h
  | num n => simp [sweepOne] at h
  | str s => simp [sweepOne] at h
  | arr xs => simp [sweepOne] at h
  | obj es =>
    cases hsu : lookupF es "stringUnit" with
    | none =>
        simp [sweepOne, hsu] at h
        rw [← h]
        simp [sweepOne, hsu]
    | some u =>
      cases u with
      | obj us =>
          cases hnew : stateEqNew (lookupF us "state") with
          | true =>
              simp [sweepOne, hsu, hnew] at h
              rw [← h]
              have hl : lookupF (setF es "stringUnit"
                  (.obj (setF us "state" (.str "translated")))) "stringUnit" =
                  some (.obj (setF us "state" (.str "translated"))) :=
                lookupF_setF_self _ _ _
              simp [sweepOne, hl, lookupF_setF_self, stateEqNew]
          | false =>
              simp [sweepOne, hsu, hnew] at h
              rw [← h]
              simp [sweepOne, hsu, hnew]
      | null => simp [sweepOne, hsu] at h; rw [← h]; simp [sweepOne, hsu]
      | bool b => simp [sweepOne, hsu] at h; rw [← h]; simp [sweepOne, hsu]
      | num n => simp [sweepOne, hsu] at h; rw [← h]; simp [sweepOne, hsu]
      | str s => simp [sweepOne, hsu] at h; rw [← h]; simp [sweepOne, hsu]
      | arr xs => simp [sweepOne, hsu] at h; rw [← h]; simp [sweepOne, hsu]

theorem sweepFields_idem (lf lf' : Fields) (h : sweepFields lf = some lf') :
    sweepFields lf' = some lf' := by
  induction lf generalizing lf' with
  | nil =>
      simp [sweepFields] at h
      subst h
      rfl
  | cons hd tl ih =>
      obtain ⟨k, v⟩ := hd
      rw [sweepFields_cons] at h
      simp only [Option.bind_eq_some] at h
      obtain ⟨v', hv', tl', htl', hout⟩ := h
      injection hout with hout
      subst hout
      rw [sweepFields_cons]
      simp only [Option.bind_eq_some]
      exact ⟨v', sweepOne_idem _ _ hv', tl', ih tl' htl', rfl⟩

theorem sweepFields_lookup (lf lf' : Fields) (l : String) (ld : Json)
    (hs : sweepFields lf = some lf') (hl : lookupF lf l = some ld) :
    ∃ ld', lookupF lf' l = some ld' ∧ sweepOne ld = some ld' := by
  induction lf generalizing lf' with
  | nil => simp [lookupF] at hl
  | cons hd tl ih =>
      obtain ⟨k, v⟩ := hd
      rw [sweepFields_cons] at hs
      simp only [Option.bind_eq_some] at hs
      obtain ⟨v', hv', tl', htl', hout⟩ := hs
      injection hout with hout
      subst hout
      by_cases hk : k = l
      · subst hk
        simp [lookupF] at hl
        exact ⟨v', by simp [lookupF], hl ▸ hv'⟩
      · simp [lookupF, hk] at hl
        obtain ⟨ld', h1, h2⟩ := ih tl' htl' hl
        exact ⟨ld', by simp [lookupF, hk, h1], h2⟩

theorem sweepFields_lookup_none (lf lf' : Fields) (l : String)
    (hs : sweepFields lf = some lf') (hl : lookupF lf l = none) :
    lookupF lf' l = none := by
  induction lf generalizing lf' with
  | nil =>
      simp [sweepFields] at hs
      subst hs
      exact hl
  | cons hd tl ih =>
      obtain ⟨k, v⟩ := hd
      rw [sweepFields_cons] at hs
      simp only [Option.bind_eq_some] at hs
      obtain ⟨v', hv', tl', htl', hout⟩ := hs
      injection hout with hout
      subst hout
      by_cases hk : k = l
      · simp [lookupF, hk] at hl
      · simp [lookupF, hk] at hl ⊢
        exact ih tl' htl' hl

theorem sweep_preserves_normalized (lf lf' : Fields) (l dv : String)
    (hs : sweepFields lf = some lf') (hN : NormalizedAt (.obj lf) l dv) :
    NormalizedAt (.obj lf') l dv := by
  obtain ⟨fs0, es, us, heq, hfs, hes, hval, hst⟩ := hN
  injection heq with hff
  subst hff
  obtain ⟨ld', h1, h2⟩ := sweepFields_lookup lf lf' l (.obj es) hs hfs
  have hnotnew : stateEqNew (lookupF us "state") = false := stateEqNew_of_ok us hst
  have : ld' = .obj es := by
    simp [sweepOne, hes, hnotnew] at h2
    exact h2.symm
  subst this
  exact ⟨lf', es, us, rfl, h1, hes, hval, hst⟩

/-! ## Fallback-preservation lemmas -/

theorem fallback_value_inv (key : String) (loc : Json) (dv : String)
    (h : fallback_value key loc = some dv) :
    ∃ fs es us, loc = .obj fs ∧ (lookupF fs "en").getD (.obj []) = .obj es ∧
      (lookupF es "stringUnit").getD (.obj []) = .obj us ∧
      (match (lookupF us "value").getD .null with
        | .str s => if s = "" then some key else some s
        | _ => some key) = some dv := by
  cases loc with
  | null => simp [fallback_value] at h
  | bool b => simp [fallback_value] at h
  | num n => simp [fallback_value] at h
  | str s => simp [fallback_value] at h
  | arr xs => simp [fallback_value] at h
  | obj fs =>
    cases hA : (lookupF fs "en").getD (.obj []) with
    | obj es =>
      cases hB : (lookupF es "stringUnit").getD (.obj []) with
      | obj us =>
          refine ⟨fs, es, us, rfl, hA, hB, ?_⟩
          simp only [fallback_value, hA, hB] at h
          exact h
      | null => simp [fallback_value, hA, hB] at h
      | bool b => simp [fallback_value, hA, hB] at h
      | num n => simp [fallback_value, hA, hB] at h
      | str s => simp [fallback_value, hA, hB] at h
      | arr xs => simp [fallback_value, hA, hB] at h
    | null => simp [fallback_value, hA] at h
    | bool b => simp [fallback_value, hA] at h
    | num n => simp [fallback_value, hA] at h
    | str s => simp [fallback_value, hA] at h
    | arr xs => simp [fallback_value, hA] at h

theorem fallback_value_eq_of (key : String) (fs es us : Fields)
    (hA : (lookupF fs "en").getD (.obj []) = .obj es)
    (hB : (lookupF es "stringUnit").getD (.obj []) = .obj us) :
    fallback_value key (.obj fs) =
      (match (lookupF us "value").getD .null with
        | .str s => if s = "" then some key else some s
        | _ => some key) := by
  simp only [fallback_value, hA, hB]

theorem fallback_value_congr (key : String) (fs fs' : Fields)
    (h : lookupF fs' "en" = lookupF fs "en") :
    fallback_value key (.obj fs') = fallback_value key (.obj fs) := by
  simp only [fallback_value, h]

theorem unitStart_of_getD (es us : Fields)
    (h : (lookupF es "stringUnit").getD (.obj []) = .obj us) :
    unitStart es = us := by
  unfold unitStart
  cases hsu : lookupF es "stringUnit" with
  | none =>
      rw [hsu] at h
      simp only [Option.getD] at h
      injection h with h2
      try exact h2
  | some u =>
      rw [hsu] at h
      simp only [Option.getD] at h
      rw [h]

theorem fallback_ensure_en (key : String) (loc loc' : Json) (dv : String)
    (hf : fallback_value key loc = some dv)
    (he : ensure_unit loc "en" dv = some loc') :
    fallback_value key loc' = some dv := by
  obtain ⟨fs, es, us, heq, hA, hB, hdv⟩ := fallback_value_inv key loc dv hf
  obtain ⟨fs2, es2, heq2, hE2, rfl⟩ := ensure_unit_inv _ _ _ _ he
  rw [heq] at heq2
  injection heq2 with hff
  subst hff
  rw [hA] at hE2
  injection hE2 with hee
  subst hee
  have hA' : (lookupF (setF fs "en"
      (.obj (setF es "stringUnit" (.obj (unitAfter es dv))))) "en").getD (.obj []) =
      .obj (setF es "stringUnit" (.obj (unitAfter es dv))) := by
    rw [lookupF_setF_self]; rfl
  have hB' : (lookupF (setF es "stringUnit" (.obj (unitAfter es dv)))
      "stringUnit").getD (.obj []) = .obj (unitAfter es dv) := by
    rw [lookupF_setF_self]; rfl
  rw [fallback_value_eq_of key _ _ _ hA' hB']
  unfold unitAfter
  rw [show unitStart es = us from unitStart_of_getD es us hB]
  rw [show (lookupF (unitWithState (unitWithValue us dv)) "value").getD .null =
      (lookupF (unitWithValue us dv) "value").getD .null from by rw [unitWithState_value]]
  cases ht : ((lookupF us "value").getD .null).truthy with
  | true =>
      rw [show unitWithValue us dv = us from by unfold unitWithValue; simp [ht]]
      exact hdv
  | false =>
      have hv' : lookupF (unitWithValue us dv) "value" = some (.str dv) := by
        unfold unitWithValue
        simp [ht, lookupF_setF_self]
      rw [hv']
      have hkey : dv = key := by
        cases hj : (lookupF us "value").getD .null with
        | str s =>
            rw [hj] at ht hdv
            have hs : s = "" := by
              by_cases hse : s = ""
              · exact hse
              · simp [Json.truthy, hse] at ht
            subst hs
            simp at hdv
            exact hdv.symm
        | null => rw [hj] at hdv; simp at hdv; exact hdv.symm
        | bool b => rw [hj] at hdv; simp at hdv; exact hdv.symm
        | num n => rw [hj] at hdv; simp at hdv; exact hdv.symm
        | arr xs => rw [hj] at hdv; simp at hdv; exact hdv.symm
        | obj fs0 => rw [hj] at hdv; simp at hdv; exact hdv.symm
      subst hkey
      simp only [Option.getD]
      by_cases hdve : dv = ""
      · simp [hdve]
      · simp [hdve]

theorem fallback_ensure_other (key : String) (loc loc' : Json) (l v dv : String)
    (hne : l ≠ "en") (he : ensure_unit loc l v = some loc')
    (hf : fallback_value key loc = some dv) : fallback_value key loc' = some dv := by
  obtain ⟨fs, es2, heq, hE, rfl⟩ := ensure_unit_inv _ _ _ _ he
  subst heq
  rw [fallback_value_congr key fs _ (lookupF_setF_ne fs l "en" _ fun e => hne e.symm)]
  exact hf

theorem fallback_ensureAll (locs : List String) (key : String) (loc loc' : Json)
    (v dv : String) (hnin : "en" ∉ locs) (h : ensureAll loc locs v = some loc')
    (hf : fallback_value key loc = some dv) : fallback_value key loc' = some dv := by
  induction locs generalizing loc with
  | nil =>
      simp [ensureAll] at h
      exact h ▸ hf
  | cons hd tl ih =>
      rw [ensureAll_cons] at h
      simp only [Option.bind_eq_some] at h
      obtain ⟨loc1, h1, h2⟩ := h
      have hne : hd ≠ "en" := fun e => hnin (e ▸ List.mem_cons_self hd tl)
      exact ih loc1 (fun m => hnin (List.mem_cons_of_mem _ m)) h2
        (fallback_ensure_other key loc loc1 hd v dv hne h1 hf)

theorem fallback_sweep (key : String) (lf lf' : Fields) (dv : String)
    (hs : sweepFields lf = some lf') (hf : fallback_value key (.obj lf) = some dv) :
    fallback_value key (.obj lf') = some dv := by
  cases hen : lookupF lf "en" with
  | none =>
      have hen' := sweepFields_lookup_none lf lf' "en" hs hen
      rw [fallback_value_congr key lf lf' (by rw [hen, hen'])]
      exact hf
  | some ld =>
      obtain ⟨ld', h1, h2⟩ := sweepFields_lookup lf lf' "en" ld hs hen
      obtain ⟨fs0, es, us, heq, hA, hB, hdv⟩ := fallback_value_inv key _ dv hf
      injection heq with hff
      subst hff
      rw [hen] at hA
      simp only [Option.getD] at hA
      subst hA
      cases hsu : lookupF es "stringUnit" with
      | none =>
          simp [sweepOne, hsu] at h2
          subst h2
          rw [fallback_value_eq_of key lf' es us (by rw [h1]; rfl) hB]
          exact hdv
      | some u =>
        rw [hsu] at hB
        simp only [Option.getD] at hB
        subst hB
        cases hnew : stateEqNew (lookupF us "state") with
        | false =>
            simp [sweepOne, hsu, hnew] at h2
            subst h2
            rw [fallback_value_eq_of key lf' es us (by rw [h1]; rfl) (by rw [hsu]; rfl)]
            exact hdv
        | true =>
            simp [sweepOne, hsu, hnew] at h2
            subst h2
            rw [fallback_value_eq_of key lf'
              (setF es "stringUnit" (.obj (setF us "state" (.str "translated"))))
              (setF us "state" (.str "translated"))
              (by rw [h1]; rfl) (by rw [lookupF_setF_self]; rfl)]
            rw [lookupF_setF_ne us "state" "value" _ (by decide)]
            exact hdv

/-! ## Idempotence of normalization -/

theorem normalize_entry_obj (k : String) (vf : Fields) :
    normalize_entry k (.obj vf) =
      (fallback_value k ((lookupF vf "localizations").getD (.obj []))).bind fun dv =>
        (ensureAll ((lookupF vf "localizations").getD (.obj []))
            REQUIRED_LOCALES dv).bind fun loc1 =>
          match loc1 with
          | .obj lf => (sweepFields lf).bind fun lf' =>
              some (.obj (setF vf "localizations" (.obj lf')))
          | _ => none := rfl

theorem normalize_entry_inv (k : String) (v v' : Json)
    (h : normalize_entry k v = some v') :
    ∃ vf dv lf lf', v = .obj vf ∧
      fallback_value k ((lookupF vf "localizations").getD (.obj [])) = some dv ∧
      ensureAll ((lookupF vf "localizations").getD (.obj []))
        REQUIRED_LOCALES dv = some (.obj lf) ∧
      sweepFields lf = some lf' ∧
      v' = .obj (setF vf "localizations" (.obj lf')) := by
  cases v with
  | null => simp [normalize_entry] at h
  | bool b => simp [normalize_entry] at h
  | num n => simp [normalize_entry] at h
  | str s => simp [normalize_entry] at h
  | arr xs => simp [normalize_entry] at h
  | obj vf =>
      rw [normalize_entry_obj] at h
      simp only [Option.bind_eq_some] at h
      obtain ⟨dv, hdv, loc1, hens, hrest⟩ := h
      cases loc1 with
      | obj lf =>
          simp only [Option.bind_eq_some] at hrest
          obtain ⟨lf', hsw, hv'⟩ := hrest
          injection hv' with hv'
          exact ⟨vf, dv, lf, lf', rfl, hdv, hens, hsw, hv'.symm⟩
      | null => simp at hrest
      | bool b => simp at hrest
      | num n => simp at hrest
      | str s => simp at hrest
      | arr xs => simp at hrest

theorem normalize_entry_idem (k : String) (v v' : Json)
    (h : normalize_entry k v = some v') : normalize_entry k v' = some v' := by
  obtain ⟨vf, dv, lf, lf', rfl, hdv, hens, hsw, rfl⟩ := normalize_entry_inv k _ _ h
  have hnd : REQUIRED_LOCALES.Nodup := by decide
  have hInv1 : ∀ l ∈ REQUIRED_LOCALES, NormalizedAt (.obj lf) l dv :=
    ensureAll_establishes _ _ _ _ hnd hens
  have hInv2 : ∀ l ∈ REQUIRED_LOCALES, NormalizedAt (.obj lf') l dv :=
    fun l hl => sweep_preserves_normalized lf lf' l dv hsw (hInv1 l hl)
  have hens2 := hens
  rw [show REQUIRED_LOCALES =
      "en" :: ["zh-Hans", "zh-Hant", "ja", "fr", "de", "es", "ko"] from rfl,
    ensureAll_cons] at hens2
  simp only [Option.bind_eq_some] at hens2
  obtain ⟨loca, h_en, h_tail⟩ := hens2
  have hf1 := fallback_ensure_en k _ loca dv hdv h_en
  have hf2 := fallback_ensureAll _ k loca (.obj lf) dv dv (by decide) h_tail hf1
  have hf3 := fallback_sweep k lf lf' dv hsw hf2
  rw [normalize_entry_obj]
  have hL : (lookupF (setF vf "localizations" (.obj lf')) "localizations").getD
      (.obj []) = .obj lf' := by rw [lookupF_setF_self]; rfl
  rw [hL, hf3]
  simp only [Option.bind]
  rw [ensureAll_of_normalized REQUIRED_LOCALES (.obj lf') dv hInv2]
  simp only [Option.bind]
  rw [sweepFields_idem lf lf' hsw]
  simp only [Option.bind]
  rw [setF_setF]

theorem normalizeStringsF_cons (k : String) (v : Json) (tl : Fields) :
    normalizeStringsF ((k, v) :: tl) =
      (normalize_entry k v).bind fun v' =>
        (normalizeStringsF tl).bind fun tl' => some ((k, v') :: tl') := rfl

theorem normalizeStringsF_idem (fs fs' : Fields)
    (h : normalizeStringsF fs = some fs') : normalizeStringsF fs' = some fs' := by
  induction fs generalizing fs' with
  | nil =>
      simp [normalizeStringsF] at h
      subst h
      rfl
  | cons hd tl ih =>
      obtain ⟨k, v⟩ := hd
      rw [normalizeStringsF_cons] at h
      simp only [Option.bind_eq_some] at h
      obtain ⟨v', hv', tl', htl', hout⟩ := h
      injection hout with hout
      subst hout
      rw [normalizeStringsF_cons]
      simp only [Option.bind_eq_some]
      exact ⟨v', normalize_entry_idem _ _ _ hv', tl', ih tl' htl', rfl⟩

/-! ## check_catalog after normalization -/

theorem check_locales_loop_cons (hd : String) (tl : List String) (k : String)
    (loc : Json) :
    check_locales_loop (hd :: tl) k loc =
      (check_locale_errors k hd loc).bind fun e =>
        (check_locales_loop tl k loc).bind fun rest => some (e ++ rest) := rfl

theorem check_locale_of_normalized (loc : Json) (k l dv : String)
    (hN : NormalizedAt loc l dv) (hdv : dv ≠ "") :
    check_locale_errors k l loc = some [] := by
  obtain ⟨fs, es, us, rfl, hfs, hes, hval, hst⟩ := hN
  have hE : (lookupF fs l).getD (.obj []) = .obj es := by rw [hfs]; rfl
  have hvt : ((lookupF us "value").getD .null).truthy = true := by
    rcases hval with hval | hval
    · exact hval
    · rw [hval]
      simp [Json.truthy, hdv]
  simp only [check_locale_errors, hE, hes, stateEqNew_of_ok us hst, hvt]
  simp

theorem check_locales_of_normalized (locs : List String) (loc : Json) (k dv : String)
    (hN : ∀ l ∈ locs, NormalizedAt loc l dv) (hdv : dv ≠ "") :
    check_locales_loop locs k loc = some [] := by
  induction locs with
  | nil => rfl
  | cons hd tl ih =>
      rw [check_locales_loop_cons,
        check_locale_of_normalized loc k hd dv (hN hd (List.mem_cons_self hd tl)) hdv]
      simp only [Option.bind]
      rw [ih fun l hl => hN l (List.mem_cons_of_mem _ hl)]
      rfl

theorem normalize_entry_check (k : String) (v v' : Json)
    (h : normalize_entry k v = some v') (hfb : entryFallbackNonempty k v = true) :
    ∃ vf', v' = .obj vf' ∧
      check_locales_loop REQUIRED_LOCALES k
        ((lookupF vf' "localizations").getD (.obj [])) = some [] := by
  obtain ⟨vf, dv, lf, lf', rfl, hdv, hens, hsw, rfl⟩ := normalize_entry_inv k _ _ h
  have hdvne : dv ≠ "" := by
    simp only [entryFallbackNonempty, hdv] at hfb
    intro e
    rw [e] at hfb
    simp at hfb
  refine ⟨_, rfl, ?_⟩
  have hL : (lookupF (setF vf "localizations" (.obj lf')) "localizations").getD
      (.obj []) = .obj lf' := by rw [lookupF_setF_self]; rfl
  rw [hL]
  exact check_locales_of_normalized _ _ _ _
    (fun l hl => sweep_preserves_normalized lf lf' l dv hsw
      (ensureAll_establishes _ _ _ _ (by decide) hens l hl)) hdvne

theorem check_entries_loop_cons_obj (k : String) (vf : Fields) (tl : Fields) :
    check_entries_loop ((k, .obj vf) :: tl) =
      (check_locales_loop REQUIRED_LOCALES k
          ((lookupF vf "localizations").getD (.obj []))).bind
        fun e => (check_entries_loop tl).bind fun rest => some (e ++ rest) := rfl

theorem check_entries_of_normalized (fs fs' : Fields)
    (h : normalizeStringsF fs = some fs')
    (hfb : ∀ kv ∈ fs, entryFallbackNonempty kv.1 kv.2 = true) :
    check_entries_loop fs' = some [] := by
  induction fs generalizing fs' with
  | nil =>
      simp [normalizeStringsF] at h
      subst h
      rfl
  | cons hd tl ih =>
      obtain ⟨k, v⟩ := hd
      rw [normalizeStringsF_cons] at h
      simp only [Option.bind_eq_some] at h
      obtain ⟨v', hv', tl', htl', hout⟩ := h
      injection hout with hout
      subst hout
      obtain ⟨vf', hv'eq, hcheck⟩ :=
        normalize_entry_check k v v' hv' (hfb (k, v) (List.mem_cons_self _ _))
      subst hv'eq
      rw [check_entries_loop_cons_obj, hcheck]
      simp only [Option.bind]
      rw [ih tl' htl' fun kv hkv => hfb kv (List.mem_cons_of_mem _ hkv)]
      rfl

/-! ## Escape resolution: the two replaces equal one left-to-right pass -/

theorem replacePair_cons_ne (a b : Char) (r : List Char) (x : Char) (m : List Char)
    (h : x ≠ a) : replacePair a b r (x :: m) = x :: replacePair a b r m := by
  cases m with
  | nil => rfl
  | cons y t => simp [replacePair, h]

theorem replacePair_cons_sndne (a b : Char) (r : List Char) (y : Char) (m : List Char)
    (h : y ≠ b) : replacePair a b r (a :: y :: m) = a :: replacePair a b r (y :: m) := by
  simp [replacePair, h]

theorem replacePair_cons_hit (a b : Char) (r : List Char) (m : List Char) :
    replacePair a b r (a :: b :: m) = r ++ replacePair a b r m := by
  simp [replacePair]

theorem innerRep_head (m : List Char) (c : Char)
    (h : (replacePair '\\' 'n' ['\n'] m).head? = some c) :
    c = '\n' ∨ m.head? = some c := by
  cases m with
  | nil => simp [replacePair] at h
  | cons x t =>
    cases t with
    | nil =>
        simp [replacePair] at h
        exact Or.inr (by simp [h])
    | cons y t2 =>
        by_cases hx : x = '\\'
        · subst hx
          by_cases hy : y = 'n'
          · subst hy
            rw [replacePair_cons_hit] at h
            simp at h
            exact Or.inl h.symm
          · rw [replacePair_cons_sndne '\\' 'n' ['\n'] y t2 hy] at h
            simp at h
            exact Or.inr (by rw [List.head?_cons, h])
        · rw [replacePair_cons_ne '\\' 'n' ['\n'] x _ hx] at h
          simp at h
          exact Or.inr (by simp [h])

theorem innerRep_ne_nil (m : List Char) (h : m ≠ []) :
    replacePair '\\' 'n' ['\n'] m ≠ [] := by
  cases m with
  | nil => exact absurd rfl h
  | cons x t =>
    cases t with
    | nil => simp [replacePair]
    | cons y t2 =>
        by_cases hx : x = '\\'
        · subst hx
          by_cases hy : y = 'n'
          · subst hy; rw [replacePair_cons_hit]; simp
          · rw [replacePair_cons_sndne '\\' 'n' ['\n'] y t2 hy]; simp
        · rw [replacePair_cons_ne '\\' 'n' ['\n'] x _ hx]; simp

theorem resolveEscapes_single_pass :
    ∀ l : List Char, resolveEscapes l = resolveEscapesSpec l
  | [] => rfl
  | [c] => by
      have h1 : resolveEscapes [c] = [c] := rfl
      rw [h1]
      by_cases h : c = '\\'
      · subst h; rfl
      · simp [resolveEscapesSpec, h]
  | x :: y :: t => by
      by_cases hx : x = '\\'
      · subst hx
        by_cases hy : y = 'n'
        · subst hy
          unfold resolveEscapes
          rw [replacePair_cons_hit, List.singleton_append]
          rw [replacePair_cons_ne '\\' '"' ['"'] '\n' _ (by decide)]
          rw [show resolveEscapesSpec ('\\' :: 'n' :: t) =
            '\n' :: resolveEscapesSpec t from rfl]
          exact congrArg _ (resolveEscapes_single_pass t)
        · by_cases hy2 : y = '"'
          · subst hy2
            unfold resolveEscapes
            rw [replacePair_cons_sndne '\\' 'n' ['\n'] '"' t (by decide)]
            rw [replacePair_cons_ne '\\' 'n' ['\n'] '"' t (by decide)]
            rw [replacePair_cons_hit, List.singleton_append]
            rw [show resolveEscapesSpec ('\\' :: '"' :: t) =
              '"' :: resolveEscapesSpec t from rfl]
            exact congrArg _ (resolveEscapes_single_pass t)
          · unfold resolveEscapes
            rw [replacePair_cons_sndne '\\' 'n' ['\n'] y t hy]
            cases hin : replacePair '\\' 'n' ['\n'] (y :: t) with
            | nil => exact absurd hin (innerRep_ne_nil _ (by simp))
            | cons d m' =>
                have hd : d = '\n' ∨ (y :: t).head? = some d :=
                  innerRep_head _ _ (by rw [hin]; rfl)
                have hdq : d ≠ '"' := by
                  rcases hd with rfl | hd
                  · decide
                  · simp at hd
                    rw [← hd]
                    exact hy2
                rw [replacePair_cons_sndne '\\' '"' ['"'] d m' hdq]
                rw [← hin]
                rw [show resolveEscapesSpec ('\\' :: y :: t) =
                  '\\' :: resolveEscapesSpec (y :: t) from by
                    simp [resolveEscapesSpec, hy, hy2]]
                exact congrArg _ (resolveEscapes_single_pass (y :: t))
      · unfold resolveEscapes
        rw [replacePair_cons_ne '\\' 'n' ['\n'] x _ hx]
        rw [replacePair_cons_ne '\\' '"' ['"'] x _ hx]
        rw [show resolveEscapesSpec (x :: y :: t) =
          x :: resolveEscapesSpec (y :: t) from by simp [resolveEscapesSpec, hx]]
        exact congrArg _ (resolveEscapes_single_pass (y :: t))
termination_by l => l.length

/-! ## Lint and report lemmas -/

theorem map_filter_eq_filterMap {α β : Type} (p : α → Bool) (g : α → β)
    (l : List α) :
    (l.filter p).map g = l.filterMap fun a => if p a then some (g a) else none := by
  induction l with
  | nil => rfl
  | cons a t ih =>
      by_cases h : p a = true
      · simp [List.filter_cons, List.filterMap_cons, h, ih]
      · simp only [Bool.not_eq_true] at h
        simp [List.filter_cons, List.filterMap_cons, h, ih]

theorem lintFile_eq (keys : List String) (path content : String) :
    lintFile keys path content =
      ((recordsOfFile path content).filter fun r =>
        !r.is_dynamic && !(keys.contains r.key)).map
        fun r => orphanMsg r.file r.line r.key := by
  unfold lintFile recordsOfFile
  rw [map_filter_eq_filterMap, List.filterMap_filterMap]
  apply List.filterMap_congr
  intro m _
  cases hraw : m.raw with
  | nil => simp [hraw]
  | cons c cs =>
      simp only [hraw]
      by_cases hdyn : containsSeq ['\\', '('] (resolveEscapes (c :: cs)) = true
      · simp [hdyn]
      · simp only [Bool.not_eq_true] at hdyn
        by_cases hkey : String.mk (resolveEscapes (c :: cs)) ∈ keys
        · simp [hdyn, hkey]
        · simp [hdyn, hkey]

theorem check_swift_eq (files : List (String × String)) (keys : List String) :
    check_swift_literals files keys =
      ((iter_swift_literals files).filter fun r =>
        !r.is_dynamic && !(keys.contains r.key)).map
        fun r => orphanMsg r.file r.line r.key := by
  unfold check_swift_literals iter_swift_literals
  induction files with
  | nil => rfl
  | cons pc rest ih =>
      simp only [List.foldr_cons]
      rw [List.filter_append, List.map_append, lintFile_eq, ih]

theorem buildMissing_eq_filter (literals : List LiteralRecord) (keys : List String) :
    buildMissing literals keys = literals.filter fun r => !(keys.contains r.key) := by
  induction literals with
  | nil => rfl
  | cons r rest ih =>
      by_cases h : keys.contains r.key = true
      · simp [buildMissing, h, ih, List.filter_cons]
      · simp only [Bool.not_eq_true] at h
        simp [buildMissing, h, ih, List.filter_cons]

/-! ## The claims -/

/-- Claim C1, amended: after the Normalizer runs on a loaded catalog, provided
every entry's fallback value (its non-empty English value, else its key) is a
non-empty string, every catalog entry has, for every locale in the
required-locale list, a well-formed localization unit whose value is truthy
(in particular non-empty whenever it is a string) and whose state is not
"new" — equivalently, lint_i18n's catalog completeness check reports no
errors on the normalized catalog.  The proviso is forced by the
counterexample: an entry whose key is the empty string and which has no
English value is backfilled with the empty string. -/
theorem C1_normalized_catalog_checks_clean (d d' : Json)
    (h : normalizeData d = some d') (hfb : fallbacksNonempty d = true) :
    check_catalog d' = some [] := by
  cases d with
  | null => simp [normalizeData] at h
  | bool b => simp [normalizeData] at h
  | num n => simp [normalizeData] at h
  | str s => simp [normalizeData] at h
  | arr xs => simp [normalizeData] at h
  | obj df =>
    cases hS : lookupF df "strings" with
    | none =>
        simp only [normalizeData, hS] at h
        injection h with h
        subst h
        simp only [check_catalog, hS]
        rfl
    | some strs =>
      cases strs with
      | obj fs =>
          simp only [normalizeData, hS] at h
          rw [Option.map_eq_some'] at h
          obtain ⟨fs', hns, hd'⟩ := h
          subst hd'
          have hfb' : ∀ kv ∈ fs, entryFallbackNonempty kv.1 kv.2 = true := by
            simp only [fallbacksNonempty, hS] at hfb
            rw [List.all_eq_true] at hfb
            exact hfb
          simp only [check_catalog, lookupF_setF_self, Option.getD_some]
          exact check_entries_of_normalized fs fs' hns hfb'
      | null => simp [normalizeData, hS] at h
      | bool b => simp [normalizeData, hS] at h
      | num n => simp [normalizeData, hS] at h
      | str s => simp [normalizeData, hS] at h
      | arr xs => simp [normalizeData, hS] at h

/-- Claim C1 counterexample: on the catalog whose single entry has the empty
string as its key and no localizations, normalization succeeds and leaves the
French (and every) unit's value equal to the empty string — not the non-empty
string the claim promises. -/
theorem C1_counterexample :
    ((normalizeData emptyKeyCatalog).bind fun d => catalogUnitValue d "" "fr") =
      some (.str "") := rfl

/-- Witness for C1 at a concrete catalog with a non-empty fallback. -/
theorem C1_witness :
    check_catalog ((normalizeData saveCatalog).getD .null) = some [] :=
  C1_normalized_catalog_checks_clean saveCatalog
    ((normalizeData saveCatalog).getD .null) rfl rfl

/-- Claim C2, amended: loading the catalog does not fail when the root
structure lacks the top-level `strings` field — load_catalog returns the
default empty mapping and the run proceeds (the same `data.get('strings', {})`
read is used by normalize_xcstrings.main and lint_i18n); only an unreadable
or unparsable catalog file aborts the run. -/
theorem C2_load_catalog_missing_strings (df : Fields)
    (h : lookupF df "strings" = none) : load_catalog (.obj df) = some (.obj []) := by
  simp [load_catalog, h]

/-- Claim C2 counterexample: a root object without `strings` loads
successfully (yielding the empty mapping) instead of failing with a
CatalogFormatError. -/
theorem C2_counterexample :
    load_catalog (Json.obj [("meta", Json.null)]) = some (Json.obj []) := rfl

/-- Witness for C2 at a concrete root object. -/
theorem C2_witness :
    load_catalog (Json.obj [("sourceLanguage", Json.str "en")]) =
      some (Json.obj []) :=
  C2_load_catalog_missing_strings [("sourceLanguage", Json.str "en")] rfl

/-- Claim C3: the Normalizer's fallback value equals the entry's English
localization value when that value is a non-empty string and the entry's key
otherwise; and a required locale with no well-formed unit receives a fresh
unit whose value is this fallback and whose state is "translated". -/
theorem C3_fallback_policy (key : String) (loc : Json) (f locale : String)
    (loc' : Json) (hf : fallback_value key loc = some f) :
    ((∀ s, enValue loc = some (.str s) → s ≠ "" → f = s) ∧
      ((∀ s, enValue loc = some (.str s) → s = "") → f = key)) ∧
    (NoWellFormedUnit loc locale → ensure_unit loc locale f = some loc' →
      unitOf loc' locale =
        some (.obj [("value", .str f), ("state", .str "translated")])) := by
  obtain ⟨fs, es, us, heqloc, hA, hB, hdv⟩ := fallback_value_inv key loc f hf
  have hen : enValue loc = some ((lookupF us "value").getD .null) := by
    rw [heqloc]
    simp only [enValue, hA, hB]
  refine ⟨⟨?_, ?_⟩, ?_⟩
  · intro s hs hne
    rw [hen] at hs
    injection hs with hs
    rw [hs] at hdv
    simp [hne] at hdv
    exact hdv.symm
  · intro hall
    cases hj : (lookupF us "value").getD .null with
    | str s =>
        have hs : s = "" := hall s (by rw [hen, hj])
        rw [hj] at hdv
        subst hs
        simp at hdv
        exact hdv.symm
    | null => rw [hj] at hdv; simp at hdv; exact hdv.symm
    | bool b => rw [hj] at hdv; simp at hdv; exact hdv.symm
    | num n => rw [hj] at hdv; simp at hdv; exact hdv.symm
    | arr xs => rw [hj] at hdv; simp at hdv; exact hdv.symm
    | obj fs0 => rw [hj] at hdv; simp at hdv; exact hdv.symm
  · intro hnwf hens
    obtain ⟨fs2, es2, heq2, hE2, rfl⟩ := ensure_unit_inv _ _ _ _ hens
    rw [heqloc] at heq2
    injection heq2 with hff
    subst hff
    have hstart : unitStart es2 = [] := by
      cases hlk : lookupF fs locale with
      | none =>
          rw [hlk] at hE2
          simp only [Option.getD] at hE2
          injection hE2 with he
          unfold unitStart
          rw [← he]
          rfl
      | some e =>
          rw [hlk] at hE2
          simp only [Option.getD] at hE2
          subst hE2
          unfold unitStart
          cases hsu : lookupF es2 "stringUnit" with
          | none => rfl
          | some u =>
            cases u with
            | obj uu =>
                exfalso
                apply hnwf uu
                rw [heqloc]
                simp [unitOf, hlk, hsu]
            | null => rfl
            | bool b => rfl
            | num n => rfl
            | str s => rfl
            | arr xs => rfl
    have hua : unitAfter es2 f = [("value", .str f), ("state", .str "translated")] := by
      unfold unitAfter
      rw [hstart]
      rw [show unitWithValue [] f = [("value", .str f)] from by
        unfold unitWithValue
        simp [lookupF, Json.truthy, setF]]
      unfold unitWithState
      simp [lookupF, stateIsNullOrNew, setF]
    simp only [unitOf, lookupF_setF_self, hua]

/-- Witness for C3: an entry with key "Delete Note?", no English value and no
French unit gets a French unit valued "Delete Note?" with state
"translated". -/
theorem C3_witness :
    unitOf (Json.obj [("fr", Json.obj [("stringUnit",
        Json.obj [("value", Json.str "Delete Note?"),
          ("state", Json.str "translated")])])]) "fr" =
      some (.obj [("value", .str "Delete Note?"), ("state", .str "translated")]) :=
  (C3_fallback_policy "Delete Note?" (Json.obj []) "Delete Note?" "fr"
    (Json.obj [("fr", Json.obj [("stringUnit",
      Json.obj [("value", Json.str "Delete Note?"),
        ("state", Json.str "translated")])])])
    rfl).2 (fun _ h => Option.noConfusion h) rfl

/-- Claim C4: normalization is idempotent — a second run of the Normalizer on
the output of the first run succeeds and changes nothing (hence any
serialization of the structure, in particular the file main writes, is
byte-identical; no unit state transitions and no value changes). -/
theorem C4_normalize_idempotent (d d' : Json) (h : normalizeData d = some d') :
    normalizeData d' = some d' := by
  cases d with
  | null => simp [normalizeData] at h
  | bool b => simp [normalizeData] at h
  | num n => simp [normalizeData] at h
  | str s => simp [normalizeData] at h
  | arr xs => simp [normalizeData] at h
  | obj df =>
    cases hS : lookupF df "strings" with
    | none =>
        simp only [normalizeData, hS] at h
        injection h with h
        subst h
        simp only [normalizeData, hS]
    | some strs =>
      cases strs with
      | obj fs =>
          simp only [normalizeData, hS] at h
          rw [Option.map_eq_some'] at h
          obtain ⟨fs', hns, hd'⟩ := h
          subst hd'
          simp only [normalizeData, lookupF_setF_self]
          rw [normalizeStringsF_idem fs fs' hns]
          simp only [Option.map_some']
          rw [setF_setF]
      | null => simp [normalizeData, hS] at h
      | bool b => simp [normalizeData, hS] at h
      | num n => simp [normalizeData, hS] at h
      | str s => simp [normalizeData, hS] at h
      | arr xs => simp [normalizeData, hS] at h

/-- Witness for C4 at a concrete catalog. -/
theorem C4_witness :
    normalizeData ((normalizeData saveCatalog).getD .null) =
      some ((normalizeData saveCatalog).getD .null) :=
  C4_normalize_idempotent saveCatalog ((normalizeData saveCatalog).getD .null) rfl

/-- Claim C5: the risk classifier is a strict priority chain — "high" when
the literal contains the interpolation marker or either of the two fixed
placeholder tokens, else "medium" when its character length exceeds 48, else
"low"; in particular a literal that both contains an interpolation marker
and is longer than 48 characters classifies as "high", never "medium". -/
theorem C5_risk_priority (s : String) :
    (hasRiskMarker s = true → risk_level s = "high") ∧
    (hasRiskMarker s = false → 48 < s.length → risk_level s = "medium") ∧
    (hasRiskMarker s = false → s.length ≤ 48 → risk_level s = "low") ∧
    (containsSeq ['\\', '('] s.data = true → 48 < s.length →
      risk_level s = "high" ∧ risk_level s ≠ "medium") := by
  unfold risk_level hasRiskMarker
  refine ⟨fun h => ?_, fun h hl => ?_, fun h hl => ?_, fun h hl => ?_⟩
  · simp only [h]
    rfl
  · simp only [Bool.or_eq_false_iff] at h
    simp [h.1.1, h.1.2, h.2, hl]
  · simp only [Bool.or_eq_false_iff] at h
    simp [h.1.1, h.1.2, h.2, Nat.not_lt.mpr hl]
  · exact ⟨by simp [h], by simp [h]⟩

/-- Witness for C5 is not needed (no hypotheses at the statement's head);
this corollary exercises the priority at a 56-character interpolated
literal. -/
theorem C5_corollary :
    risk_level "Deleted \\(count) notes and emptied the recycle bin today" = "high" ∧
    risk_level "Deleted \\(count) notes and emptied the recycle bin today" ≠ "medium" :=
  (C5_risk_priority "Deleted \\(count) notes and emptied the recycle bin today").2.2.2
    rfl (by decide)

/-- Claim C6: check_swift_literals emits the error naming file, line and
literal text for every extracted literal that is not dynamic and whose key is
not in the catalog's key set, and every error it emits arises from such a
literal — so no error is emitted for any dynamic literal, regardless of
catalog membership. -/
theorem C6_lint_swift_literals (files : List (String × String)) (keys : List String) :
    (∀ r ∈ iter_swift_literals files, r.is_dynamic = false →
        keys.contains r.key = false →
        orphanMsg r.file r.line r.key ∈ check_swift_literals files keys) ∧
    (∀ e ∈ check_swift_literals files keys, ∃ r,
        r ∈ iter_swift_literals files ∧ r.is_dynamic = false ∧
        keys.contains r.key = false ∧ e = orphanMsg r.file r.line r.key) := by
  constructor
  · intro r hr hdyn hkey
    rw [check_swift_eq]
    have hk2 : r.key ∉ keys := by simpa using hkey
    exact List.mem_map_of_mem _ (List.mem_filter.mpr ⟨hr, by simp [hdyn, hk2]⟩)
  · intro e he
    rw [check_swift_eq] at he
    obtain ⟨r, hrf, heq⟩ := List.mem_map.mp he
    obtain ⟨hr, hcond⟩ := List.mem_filter.mp hrf
    simp only [Bool.and_eq_true, Bool.not_eq_true'] at hcond
    exact ⟨r, hr, hcond.1, hcond.2, heq.symm⟩

/-- Claim C7: within every captured literal, escape resolution (the two
sequential replaces of the source) is exactly the single left-to-right pass
that converts the two-character escaped-newline sequence to a newline and the
two-character escaped-quote sequence to a quote, and performs no other
processing on the captured text. -/
theorem C7_escape_resolution (raw : List Char) :
    resolveEscapes raw = resolveEscapesSpec raw :=
  resolveEscapes_single_pass raw

/-- Claim C8: in the missing-keys report, the retained rows are exactly the
literals whose key is not in the catalog (in extraction encounter order), the
summary line states the exact total count of missing literals, the table
holds the first min(total, 400) of them, and the table-delimiter character is
escaped in keys (the row renderer uses escPipe, shown at a concrete key). -/
theorem C8_missing_report (literals : List LiteralRecord) (keys : List String) :
    buildMissing literals keys =
      literals.filter (fun r => !(keys.contains r.key)) ∧
    (missingReportLines literals keys).get? 2 =
      some ("- Total missing literals: " ++
        toString (buildMissing literals keys).length) ∧
    (missingReportLines literals keys).drop 6 =
      ((buildMissing literals keys).take 400).map missingRow ∧
    ((missingReportLines literals keys).drop 6).length =
      min (buildMissing literals keys).length 400 ∧
    escPipe "a|b" = "a\\|b" := by
  refine ⟨buildMissing_eq_filter literals keys, rfl, rfl, ?_, rfl⟩
  show (((buildMissing literals keys).take 400).map missingRow).length = _
  rw [List.length_map, List.length_take, Nat.min_comm]

/-- Claim C9: for every matched literal the extractor sets origin_line to
1 plus the number of newline characters strictly before the match's start
offset; in particular source text whose third line holds `Text("Hello")`
yields exactly one record with key "Hello", line 3, context "Text" and
is_dynamic false. -/
theorem C9_extraction_line_numbers :
    recordsOfFile "chillnote/Views/NoteView.swift" demoContent =
      [{ key := "Hello", file := "chillnote/Views/NoteView.swift", line := 3,
         is_dynamic := false, context := "Text" }] ∧
    ∀ (path content : String) (r : LiteralRecord), r ∈ recordsOfFile path content →
      ∃ m, m ∈ scanContent content.data ∧
        r.line = countNl (content.data.take m.start) + 1 := by
  constructor
  · decide
  · intro path content r hr
    unfold recordsOfFile at hr
    rw [List.mem_filterMap] at hr
    obtain ⟨m, hm, hsome⟩ := hr
    refine ⟨m, hm, ?_⟩
    cases hraw : m.raw with
    | nil => rw [hraw] at hsome; simp at hsome
    | cons c cs =>
        rw [hraw] at hsome
        injection hsome with hsome
        rw [← hsome]

/-- Claim C10: the report generator and the linter embed the identical
extraction (same pattern, same first-non-empty-capture selection, same
escape resolution, same dynamic test), so the linter's orphan errors are
exactly the non-dynamic subset of the literals the missing-keys report
classifies as not in the catalog, rendered as error lines. -/
theorem C10_linter_matches_report (files : List (String × String))
    (keys : List String) :
    check_swift_literals files keys =
      ((buildMissing (iter_swift_literals files) keys).filter fun r =>
        !r.is_dynamic).map fun r => orphanMsg r.file r.line r.key := by
  rw [check_swift_eq, buildMissing_eq_filter, List.filter_filter]
